import Mathlib

/-!
Formal model of the LSEQ CRDT of the rust-crdt repository.

The sequence container is translated from `src/src/lseq.rs` (current
variant) and `src/src/lseq/mod.rs` (older variant).  The identifier
component (`mod ident`, i.e. `ident.rs`) is declared by those files but is
not among the provided sources, so the identifier type, its order, the
sentinels and the `IdentGen` allocator are modelled from the
specification, sections 3, 4.1 and 4.2.
-/

namespace Crdts

/-- Modelled from the spec: a position of an identifier path is a pair
`(index, site)`; `ident.rs` is not under the provided sources. -/
abbrev Pos := Nat × Nat

/-- Modelled from the spec: an identifier is an ordered sequence of
positions (the path from the root of the exponential tree to a leaf). -/
abbrev Identifier := List Pos

/-- Modelled from the spec: positions compare by `index` first and by
`site` second (the site breaks ties at that level only). -/
def posCmp (a b : Pos) : Ordering := (compare a.1 b.1).then (compare a.2 b.2)

/-- Modelled from the spec: identifiers compare lexicographically by
position; if one identifier is a strict prefix of the other, the shorter
one is less. -/
def identCmp : Identifier → Identifier → Ordering
  | [], [] => .eq
  | [], _ :: _ => .lt
  | _ :: _, [] => .gt
  | a :: xs, b :: ys => (posCmp a b).then (identCmp xs ys)

/-- The strict order decided by `identCmp`. -/
def idLt (x y : Identifier) : Prop := identCmp x y = .lt

instance (x y : Identifier) : Decidable (idLt x y) := by unfold idLt; infer_instance

/-! ### Basic facts about the identifier order -/

theorem ordering_then_eq_lt {a b : Ordering} : a.then b = .lt ↔ a = .lt ∨ (a = .eq ∧ b = .lt) := by
  cases a <;> simp [Ordering.then]

theorem ordering_then_eq_eq {a b : Ordering} : a.then b = .eq ↔ a = .eq ∧ b = .eq := by
  cases a <;> simp [Ordering.then]

theorem ordering_then_eq_gt {a b : Ordering} : a.then b = .gt ↔ a = .gt ∨ (a = .eq ∧ b = .gt) := by
  cases a <;> simp [Ordering.then]

theorem posCmp_eq_lt {a b : Pos} : posCmp a b = .lt ↔ a.1 < b.1 ∨ (a.1 = b.1 ∧ a.2 < b.2) := by
  simp [posCmp, ordering_then_eq_lt, Nat.compare_eq_lt, Nat.compare_eq_eq]

theorem posCmp_eq_eq {a b : Pos} : posCmp a b = .eq ↔ a = b := by
  obtain ⟨a1, a2⟩ := a; obtain ⟨b1, b2⟩ := b
  simp [posCmp, ordering_then_eq_eq, Nat.compare_eq_eq]

theorem posCmp_eq_gt {a b : Pos} : posCmp a b = .gt ↔ posCmp b a = .lt := by
  simp [posCmp, ordering_then_eq_gt, ordering_then_eq_lt, Nat.compare_eq_lt,
    Nat.compare_eq_eq, Nat.compare_eq_gt]
  omega

theorem posCmp_lt_trans {a b c : Pos} (h1 : posCmp a b = .lt) (h2 : posCmp b c = .lt) :
    posCmp a c = .lt := by
  rw [posCmp_eq_lt] at h1 h2 ⊢; omega

theorem identCmp_eq_eq : ∀ {x y : Identifier}, identCmp x y = .eq ↔ x = y
  | [], [] => by simp [identCmp]
  | [], _ :: _ => by simp [identCmp]
  | _ :: _, [] => by simp [identCmp]
  | a :: xs, b :: ys => by
    simp only [identCmp, ordering_then_eq_eq, posCmp_eq_eq, identCmp_eq_eq (x := xs) (y := ys)]
    simp [and_comm]

theorem identCmp_self (x : Identifier) : identCmp x x = .eq := identCmp_eq_eq.mpr rfl

theorem identCmp_eq_gt : ∀ {x y : Identifier}, identCmp x y = .gt ↔ identCmp y x = .lt
  | [], [] => by simp [identCmp]
  | [], _ :: _ => by simp [identCmp]
  | _ :: _, [] => by simp [identCmp]
  | a :: xs, b :: ys => by
    simp only [identCmp, ordering_then_eq_gt, ordering_then_eq_lt, posCmp_eq_gt,
      identCmp_eq_gt (x := xs) (y := ys)]
    constructor
    · rintro (h | ⟨he, h⟩)
      · exact Or.inl h
      · exact Or.inr ⟨posCmp_eq_eq.mpr (posCmp_eq_eq.mp he).symm, h⟩
    · rintro (h | ⟨he, h⟩)
      · exact Or.inl h
      · exact Or.inr ⟨posCmp_eq_eq.mpr (posCmp_eq_eq.mp he).symm, h⟩

theorem idLt_cons_cons {a b : Pos} {xs ys : Identifier} :
    idLt (a :: xs) (b :: ys) ↔ posCmp a b = .lt ∨ (a = b ∧ idLt xs ys) := by
  simp [idLt, identCmp, ordering_then_eq_lt, posCmp_eq_eq]

theorem idLt_nil_cons {b : Pos} {ys : Identifier} : idLt [] (b :: ys) := rfl

theorem not_idLt_nil : ∀ {x : Identifier}, ¬ idLt x []
  | [] => by simp [idLt, identCmp]
  | _ :: _ => by simp [idLt, identCmp]

theorem idLt_irrefl (x : Identifier) : ¬ idLt x x := by
  simp [idLt, identCmp_self]

theorem idLt_trans : ∀ {x y z : Identifier}, idLt x y → idLt y z → idLt x z
  | _, [], _, h1, _ => absurd h1 not_idLt_nil
  | _, _, [], _, h2 => absurd h2 not_idLt_nil
  | [], _ :: _, _ :: _, _, _ => idLt_nil_cons
  | a :: xs, b :: ys, c :: zs, h1, h2 => by
    rw [idLt_cons_cons] at h1 h2 ⊢
    rcases h1 with h1 | ⟨rfl, h1⟩
    · rcases h2 with h2 | ⟨rfl, h2⟩
      · exact Or.inl (posCmp_lt_trans h1 h2)
      · exact Or.inl h1
    · rcases h2 with h2 | ⟨rfl, h2⟩
      · exact Or.inl h2
      · exact Or.inr ⟨rfl, idLt_trans h1 h2⟩

theorem idLt_ne {x y : Identifier} (h : idLt x y) : x ≠ y := by
  rintro rfl; exact idLt_irrefl x h

theorem idLt_asymm {x y : Identifier} (h : idLt x y) : ¬ idLt y x := by
  intro h2; exact idLt_irrefl x (idLt_trans h h2)

/-! ### The allocator, modelled from the spec (section 4.2) -/

/-- Modelled from the spec: width of the index space at (zero-based)
depth `k` is `2 ^ (3 + k)`. -/
def width (d : Nat) : Nat := 2 ^ (3 + d)

/-- Modelled from the spec: the fixed constant bounding the random step. -/
def BOUNDARY : Nat := 10

/-- Modelled from the spec: the per-site allocator state.  `site_id` is the
owning site; `strat` is the per-depth boundary strategy (`true` =
boundary-plus, `false` = boundary-minus) — the sticky strategy map with
its random choices resolved; `steps` injects the pseudo-random source used
to sample the step at each depth. -/
structure IdentGen where
  site_id : Nat
  strat : Nat → Bool
  steps : Nat → Nat

/-- Modelled from the spec: the `BEGIN` sentinel `[(0, site0)]` with the
reserved site value `0`. -/
def beginIdent : Identifier := [(0, 0)]

/-- Modelled from the spec: the `END` sentinel `[(2^3 - 1, site0)]`. -/
def endIdent : Identifier := [(2 ^ 3 - 1, 0)]

/-- `IdentGen::lower`, modelled from the spec: returns `BEGIN`. -/
def IdentGen.lower (_ : IdentGen) : Identifier := beginIdent

/-- `IdentGen::upper`, modelled from the spec: returns `END`. -/
def IdentGen.upper (_ : IdentGen) : Identifier := endIdent

/-- Modelled from the spec: at target depth `d` with a gap `(lo, hi)`
(`hi - lo ≥ 2`), pick a step uniformly from `[1, min(BOUNDARY, hi-lo-1)]`
and place the new index at `lo + step` (boundary-plus) or `hi - step`
(boundary-minus), per the depth strategy. -/
def IdentGen.newIx (g : IdentGen) (d lo hi : Nat) : Nat :=
  if g.strat d then lo + (1 + g.steps d % min BOUNDARY (hi - lo - 1))
  else hi - (1 + g.steps d % min BOUNDARY (hi - lo - 1))

/-- Modelled from the spec: the descent once the upper bound `q` no longer
constrains the result (the prefix already committed is strictly below `q`
at an earlier depth).  At each depth the lower bound is `p`'s index there
(`0` once `p` is exhausted) and the upper bound is `width d`; with room
(`hi - lo ≥ 2`) a single fresh position is appended, otherwise `p`'s
position is copied verbatim and the descent continues. -/
def IdentGen.allocFree (g : IdentGen) : Nat → Identifier → Identifier
  | d, [] => [(g.newIx d 0 (width d), g.site_id)]
  | d, (i, s) :: p => if i + 1 < width d then [(g.newIx d i (width d), g.site_id)]
    else (i, s) :: g.allocFree (d + 1) p

/-- Modelled from the spec: the main descent of `alloc(p, q)`, comparing
`p` and `q` position by position.  At depth `d` the bounds are `p`'s index
(`0` if `p` is exhausted there) and `q`'s index.  If the gap holds at
least one free index (`q_d - p_d > 1`), allocate here; otherwise copy `p`'s
position (the minimum position `(0, 0)` once `p` is exhausted) and
descend, keeping `q` as the upper bound while the copied position still
equals `q`'s and dropping it (it no longer constrains) as soon as the
copied position is strictly below `q`'s. -/
def IdentGen.allocBounded (g : IdentGen) : Nat → Identifier → Identifier → Identifier
  | _, _, [] => [(1, g.site_id)]
  | d, [], (qi, qs) :: q =>
    if 0 + 1 < qi then [(g.newIx d 0 qi, g.site_id)]
    else if qi = 0 ∧ qs = 0 then (0, 0) :: g.allocBounded (d + 1) [] q
    else (0, 0) :: g.allocFree (d + 1) []
  | d, (pi, ps) :: p, (qi, qs) :: q =>
    if pi + 1 < qi then [(g.newIx d pi qi, g.site_id)]
    else if pi = qi ∧ ps = qs then (pi, ps) :: g.allocBounded (d + 1) p q
    else (pi, ps) :: g.allocFree (d + 1) p

/-- `IdentGen::alloc`, modelled from the spec: given `p < q`, synthesize a
fresh identifier strictly between them, starting the descent at depth 0. -/
def IdentGen.alloc (g : IdentGen) (p q : Identifier) : Identifier := g.allocBounded 0 p q

/-- Real identifiers never end in an index-0 position: the last position
of every allocated identifier carries an index of at least 1 (indices `0`
and `width - 1` are reserved; `END` also satisfies this).  This is the
well-formedness condition on the upper bound of `alloc`. -/
def lastIdxPos : Identifier → Bool
  | [] => false
  | [(i, _)] => i != 0
  | _ :: rest => lastIdxPos rest

theorem lastIdxPos_cons {x : Pos} {rest : Identifier} (h : rest ≠ []) :
    lastIdxPos (x :: rest) = lastIdxPos rest := by
  obtain ⟨i, s⟩ := x
  cases rest with
  | nil => exact absurd rfl h
  | cons y t => rfl

/-! ### The allocator gap theorem -/

theorem newIx_bounds (g : IdentGen) (d lo hi : Nat) (h : lo + 2 ≤ hi) :
    lo < g.newIx d lo hi ∧ g.newIx d lo hi < hi := by
  have hb : 0 < min BOUNDARY (hi - lo - 1) := by
    unfold BOUNDARY; omega
  have hm := Nat.mod_lt (g.steps d) hb
  have hr : min BOUNDARY (hi - lo - 1) ≤ hi - lo - 1 := Nat.min_le_right _ _
  unfold IdentGen.newIx
  split <;> omega

theorem width_ge_eight (d : Nat) : 8 ≤ width d := by
  have : 2 ^ 3 ≤ 2 ^ (3 + d) := Nat.pow_le_pow_right (by norm_num) (by omega)
  simpa [width] using this

theorem allocFree_gt (g : IdentGen) : ∀ (p : Identifier) (d : Nat), idLt p (g.allocFree d p)
  | [], d => idLt_nil_cons
  | (i, s) :: p, d => by
    rw [IdentGen.allocFree]
    split
    · rename_i hroom
      have := newIx_bounds g d i (width d) (by omega)
      exact idLt_cons_cons.mpr (Or.inl (posCmp_eq_lt.mpr (Or.inl this.1)))
    · exact idLt_cons_cons.mpr (Or.inr ⟨rfl, allocFree_gt g p (d + 1)⟩)

theorem posCmp_zero_lt {q : Pos} (h : q ≠ (0, 0)) : posCmp (0, 0) q = .lt := by
  obtain ⟨qi, qs⟩ := q
  rw [posCmp_eq_lt]
  by_cases h0 : qi = 0
  · subst h0
    simp only [ne_eq, Prod.mk.injEq, true_and] at h
    omega
  · omega

theorem allocBounded_gap (g : IdentGen) :
    ∀ (q : Identifier) (d : Nat) (p : Identifier), idLt p q → lastIdxPos q = true →
      idLt p (g.allocBounded d p q) ∧ idLt (g.allocBounded d p q) q := by
  intro q
  induction q with
  | nil => intro d p hpq _; exact absurd hpq not_idLt_nil
  | cons qh qt ih =>
    obtain ⟨qi, qs⟩ := qh
    intro d p hpq hwf
    cases p with
    | nil =>
      rw [IdentGen.allocBounded]
      split
      · rename_i hroom
        have hb := newIx_bounds g d 0 qi (by omega)
        exact ⟨idLt_nil_cons, idLt_cons_cons.mpr (Or.inl (posCmp_eq_lt.mpr (Or.inl hb.2)))⟩
      · split
        · rename_i hnr heq
          obtain ⟨rfl, rfl⟩ := heq
          -- `q`'s head is the minimum position; its tail must be nonempty, else
          -- its last index would be 0, contradicting well-formedness.
          cases qt with
          | nil => simp [lastIdxPos] at hwf
          | cons y t =>
            rw [lastIdxPos_cons (by simp)] at hwf
            have htail := ih d.succ [] idLt_nil_cons hwf
            exact ⟨idLt_nil_cons, idLt_cons_cons.mpr (Or.inr ⟨rfl, htail.2⟩)⟩
        · rename_i hnr hne
          refine ⟨idLt_nil_cons, idLt_cons_cons.mpr (Or.inl (posCmp_zero_lt ?_))⟩
          intro hc
          rw [Prod.mk.injEq] at hc
          exact hne ⟨hc.1, hc.2⟩
    | cons ph pt =>
      obtain ⟨pi, ps⟩ := ph
      rw [IdentGen.allocBounded]
      split
      · rename_i hroom
        have hb := newIx_bounds g d pi qi (by omega)
        exact ⟨idLt_cons_cons.mpr (Or.inl (posCmp_eq_lt.mpr (Or.inl hb.1))),
          idLt_cons_cons.mpr (Or.inl (posCmp_eq_lt.mpr (Or.inl hb.2)))⟩
      · split
        · rename_i hnr heq
          obtain ⟨rfl, rfl⟩ := heq
          have htl : idLt pt qt := by
            rcases idLt_cons_cons.mp hpq with h | ⟨_, h⟩
            · rw [posCmp_eq_lt] at h; omega
            · exact h
          cases qt with
          | nil => exact absurd htl not_idLt_nil
          | cons y t =>
            rw [lastIdxPos_cons (by simp)] at hwf
            have htail := ih d.succ pt htl hwf
            exact ⟨idLt_cons_cons.mpr (Or.inr ⟨rfl, htail.1⟩),
              idLt_cons_cons.mpr (Or.inr ⟨rfl, htail.2⟩)⟩
        · rename_i hnr hne
          have hhd : posCmp (pi, ps) (qi, qs) = .lt := by
            rcases idLt_cons_cons.mp hpq with h | ⟨h, _⟩
            · exact h
            · exact absurd ⟨congrArg Prod.fst h, congrArg Prod.snd h⟩ hne
          exact ⟨idLt_cons_cons.mpr (Or.inr ⟨rfl, allocFree_gt g pt (d + 1)⟩),
            idLt_cons_cons.mpr (Or.inl hhd)⟩

/-- The allocator contract: for well-formed bounds `p < q`, the fresh
identifier lies strictly between them. -/
theorem alloc_gap (g : IdentGen) (p q : Identifier) (hpq : idLt p q)
    (hwf : lastIdxPos q = true) :
    idLt p (g.alloc p q) ∧ idLt (g.alloc p q) q :=
  allocBounded_gap g q 0 p hpq hwf

/-! ### The sequence container, translated from src/src/lseq.rs -/

/-- `Dot<A>` of rust-crdt (`vclock.rs`): an actor paired with a counter.
Actors (`SiteId`) are unsigned integers. -/
structure Dot where
  actor : Nat
  counter : Nat
deriving DecidableEq

/-- An `Entry` of the LSEQ: identifier, origin dot and element. -/
structure Entry (T : Type) where
  id : Identifier
  dot : Dot
  c : T
deriving DecidableEq

/-- The LSEQ replica state: the ordered entry sequence, the identifier
generator and the local dot. -/
structure LSeq (T : Type) where
  seq : List (Entry T)
  gen : IdentGen
  dot : Dot

/-- Operations on an LSEQ (the `Op` enum of lseq.rs). -/
inductive Op (T : Type) where
  | Insert (id : Identifier) (dot : Dot) (c : T)
  | Delete (remote : Dot) (id : Identifier) (dot : Dot)
deriving DecidableEq

/-- The identifier an operation refers to. -/
def Op.opId : Op T → Identifier
  | .Insert id _ _ => id
  | .Delete _ id _ => id

/-- The dot of the site that issued the operation. -/
def Op.opDot : Op T → Dot
  | .Insert _ dot _ => dot
  | .Delete _ _ dot => dot

/-- `Op.isDelete` holds of `Delete` operations. -/
def Op.isDelete : Op T → Prop
  | .Insert _ _ _ => False
  | .Delete _ _ _ => True

/-- `self.seq.binary_search_by(|e| e.id.cmp(&ix))` followed by
`self.seq.insert(res, entry)` on an `Err(res)` result: on an
identifier-sorted sequence the std binary search locates `ix`, and a miss
yields the insertion point that keeps the sequence sorted, i.e. the first
position whose entry compares `Greater`; on a hit nothing is inserted. -/
def seqInsert (id : Identifier) (dot : Dot) (c : T) : List (Entry T) → List (Entry T)
  | [] => [⟨id, dot, c⟩]
  | e :: rest =>
    match identCmp e.id id with
    | .lt => e :: seqInsert id dot c rest
    | .eq => e :: rest
    | .gt => ⟨id, dot, c⟩ :: e :: rest

/-- `self.seq.binary_search_by(|e| e.id.cmp(&ix))` followed by
`self.seq.remove(i)` on an `Ok(i)` result: on an identifier-sorted
sequence the entry holding `ix` is removed; on a miss nothing happens. -/
def seqDelete (id : Identifier) : List (Entry T) → List (Entry T)
  | [] => []
  | e :: rest =>
    match identCmp e.id id with
    | .lt => e :: seqDelete id rest
    | .eq => rest
    | .gt => e :: rest

/-- `LSeq::new`: the empty replica for a site.  The site id seeds both the
generator and the local dot (counter 0); the generator's random source and
resolved strategy choices are injected explicitly. -/
def LSeq.new (T : Type) (id : Nat) (strat : Nat → Bool) (steps : Nat → Nat) : LSeq T :=
  { seq := [], gen := ⟨id, strat, steps⟩, dot := ⟨id, 0⟩ }

/-- `LSeq::insert`: insert an identifier and value (no-op if present). -/
def LSeq.insert (s : LSeq T) (ix : Identifier) (dot : Dot) (c : T) : LSeq T :=
  { s with seq := seqInsert ix dot c s.seq }

/-- `LSeq::delete`: remove an identifier (no-op if absent). -/
def LSeq.delete (s : LSeq T) (ix : Identifier) : LSeq T :=
  { s with seq := seqDelete ix s.seq }

/-- `CmRDT::apply` for `LSeq`: an `Insert` whose identifier is already
present and a `Delete` whose identifier is absent are no-ops. -/
def LSeq.apply (s : LSeq T) : Op T → LSeq T
  | .Insert id dot c => s.insert id dot c
  | .Delete _ id _ => s.delete id

/-- `LSeq::insert_index`: local insertion at a position.  An index past
the length appends.  The two `assert!`s of the source (that the allocated
identifier lies strictly between its bounds) are modelled by the guard
returning `none`, which stands for the panic. -/
def LSeq.insert_index (s : LSeq T) (ix : Nat) (c : T) : Option (Op T × LSeq T) :=
  let oid : Option Identifier :=
    if s.seq.length ≤ ix then
      let prev := ((s.seq.getLast?).map Entry.id).getD s.gen.lower
      some (s.gen.alloc prev s.gen.upper)
    else
      let prev := match ix with
        | 0 => s.gen.lower
        | i + 1 => ((s.seq[i]?).map Entry.id).getD s.gen.lower
        -- the `.unwrap()` of the source cannot fail here: `i < ix < len`
      let next := ((s.seq[ix]?).map Entry.id).getD s.gen.upper
      let a := s.gen.alloc prev next
      if idLt prev a ∧ idLt a next then some a else none
  oid.map fun id =>
    let op : Op T := .Insert id s.dot c
    let s' : LSeq T := { s with dot := ⟨s.dot.actor, s.dot.counter + 1⟩ }
    (op, s'.apply op)

/-- `LSeq::delete_index`: local deletion at a position; out of range
(`ix >= len`) produces no operation (`None`). -/
def LSeq.delete_index (s : LSeq T) (ix : Nat) : Option (Op T × LSeq T) :=
  if s.seq.length ≤ ix then none
  else
    (s.seq[ix]?).map fun data =>
      let op : Op T := .Delete data.dot data.id s.dot
      let s' : LSeq T := { s with dot := ⟨s.dot.actor, s.dot.counter + 1⟩ }
      (op, s'.apply op)

/-- `LSeq::len`. -/
def LSeq.len (s : LSeq T) : Nat := s.seq.length

/-- `LSeq::iter`: the stored elements in identifier order. -/
def LSeq.iter (s : LSeq T) : List T := s.seq.map Entry.c

/-! ### Replica-state invariants -/

/-- Entries strictly ordered by identifier (the storage invariant). -/
def SortedSeq (l : List (Entry T)) : Prop :=
  List.Pairwise (fun e1 e2 => idLt e1.id e2.id) l

/-- A real identifier: strictly between the sentinels and not ending in a
reserved index-0 position (every identifier the allocator emits is such). -/
def WfId (i : Identifier) : Prop :=
  idLt beginIdent i ∧ idLt i endIdent ∧ lastIdxPos i = true

/-- The replica-state invariant: sorted storage holding real identifiers. -/
def Inv (s : LSeq T) : Prop :=
  SortedSeq s.seq ∧ ∀ e ∈ s.seq, WfId e.id

/-! ### Behaviour of the sorted scans -/

theorem identCmp_of_idLt {x y : Identifier} (h : idLt x y) : identCmp x y = .lt := h

theorem identCmp_gt_of_idLt {x y : Identifier} (h : idLt y x) : identCmp x y = .gt :=
  identCmp_eq_gt.mpr h

theorem seqInsert_append {id : Identifier} {dot : Dot} {c : T} :
    ∀ {l1 l2 : List (Entry T)}, (∀ e ∈ l1, idLt e.id id) → (∀ e ∈ l2, idLt id e.id) →
      seqInsert id dot c (l1 ++ l2) = l1 ++ ⟨id, dot, c⟩ :: l2
  | [], [], _, _ => rfl
  | [], e :: l2, _, h2 => by
    simp [seqInsert, identCmp_gt_of_idLt (h2 e (by simp))]
  | e :: l1, l2, h1, h2 => by
    have he : identCmp e.id id = .lt := h1 e (by simp)
    simp only [List.cons_append, seqInsert, he, List.append_eq]
    rw [seqInsert_append (fun x hx => h1 x (by simp [hx])) h2]

theorem seqDelete_append {id : Identifier} {E : Entry T} (hE : E.id = id) :
    ∀ {l1 l2 : List (Entry T)}, (∀ e ∈ l1, idLt e.id id) →
      seqDelete id (l1 ++ E :: l2) = l1 ++ l2
  | [], l2, _ => by
    have : identCmp E.id id = .eq := by rw [hE]; exact identCmp_self id
    simp [seqDelete, this]
  | e :: l1, l2, h1 => by
    have he : identCmp e.id id = .lt := h1 e (by simp)
    simp only [List.cons_append, seqDelete, he, List.append_eq]
    rw [seqDelete_append hE (fun x hx => h1 x (by simp [hx]))]

theorem seqDelete_absent {id : Identifier} :
    ∀ {l : List (Entry T)}, (∀ e ∈ l, e.id ≠ id) → seqDelete id l = l
  | [], _ => rfl
  | e :: rest, h => by
    cases hc : identCmp e.id id with
    | lt => simp only [seqDelete, hc]; rw [seqDelete_absent (fun x hx => h x (by simp [hx]))]
    | eq => exact absurd (identCmp_eq_eq.mp hc) (h e (by simp))
    | gt => simp [seqDelete, hc]

theorem seqInsert_mem {id : Identifier} {dot : Dot} {c : T} :
    ∀ {l : List (Entry T)} {x : Entry T}, x ∈ seqInsert id dot c l →
      x ∈ l ∨ x = ⟨id, dot, c⟩
  | [], x, h => Or.inr (by simpa [seqInsert] using h)
  | e :: rest, x, h => by
    cases hc : identCmp e.id id with
    | lt =>
      rw [seqInsert, hc] at h
      rcases List.mem_cons.mp h with rfl | h
      · exact Or.inl (by simp)
      · rcases seqInsert_mem h with h | h
        · exact Or.inl (by simp [h])
        · exact Or.inr h
    | eq => rw [seqInsert, hc] at h; exact Or.inl h
    | gt =>
      rw [seqInsert, hc] at h
      rcases List.mem_cons.mp h with rfl | h
      · exact Or.inr rfl
      · exact Or.inl h

theorem seqInsert_sorted {id : Identifier} {dot : Dot} {c : T} :
    ∀ {l : List (Entry T)}, SortedSeq l → SortedSeq (seqInsert id dot c l)
  | [], _ => by simp [seqInsert, SortedSeq]
  | e :: rest, hs => by
    rw [SortedSeq, List.pairwise_cons] at hs
    obtain ⟨he, hrest⟩ := hs
    cases hc : identCmp e.id id with
    | lt =>
      rw [seqInsert, hc]
      rw [SortedSeq, List.pairwise_cons]
      refine ⟨fun y hy => ?_, seqInsert_sorted hrest⟩
      rcases seqInsert_mem hy with h | rfl
      · exact he y h
      · exact hc
    | eq => rw [seqInsert, hc]; exact List.Pairwise.cons he hrest
    | gt =>
      rw [seqInsert, hc]
      have hlt : idLt id e.id := identCmp_eq_gt.mp hc
      rw [SortedSeq, List.pairwise_cons]
      refine ⟨fun y hy => ?_, List.Pairwise.cons he hrest⟩
      rcases List.mem_cons.mp hy with rfl | hy
      · exact hlt
      · exact idLt_trans hlt (he y hy)

theorem seqDelete_sublist (id : Identifier) :
    ∀ (l : List (Entry T)), List.Sublist (seqDelete id l) l
  | [] => List.Sublist.refl []
  | e :: rest => by
    cases hc : identCmp e.id id with
    | lt => rw [seqDelete, hc]; exact List.Sublist.cons₂ e (seqDelete_sublist id rest)
    | eq => rw [seqDelete, hc]; exact List.sublist_cons_self e rest
    | gt => rw [seqDelete, hc]

theorem seqDelete_sorted {id : Identifier} {l : List (Entry T)} (hs : SortedSeq l) :
    SortedSeq (seqDelete id l) :=
  hs.sublist (seqDelete_sublist id l)

theorem seqInsert_present {id : Identifier} {dot : Dot} {c : T} :
    ∀ {l : List (Entry T)}, SortedSeq l → (∃ e ∈ l, e.id = id) →
      seqInsert id dot c l = l
  | [], _, hex => by simp at hex
  | e :: rest, hs, hex => by
    rw [SortedSeq, List.pairwise_cons] at hs
    obtain ⟨he, hrest⟩ := hs
    obtain ⟨f, hf, hfid⟩ := hex
    cases hc : identCmp e.id id with
    | lt =>
      rcases List.mem_cons.mp hf with rfl | hf
      · rw [hfid, identCmp_self] at hc; simp at hc
      · rw [seqInsert, hc, seqInsert_present hrest ⟨f, hf, hfid⟩]
    | eq => rw [seqInsert, hc]
    | gt =>
      have hlt : idLt id e.id := identCmp_eq_gt.mp hc
      rcases List.mem_cons.mp hf with rfl | hf
      · rw [hfid] at hlt; exact absurd hlt (idLt_irrefl id)
      · have h2 : idLt id f.id := idLt_trans hlt (he f hf)
        rw [hfid] at h2
        exact absurd h2 (idLt_irrefl id)

theorem seqInsert_idem {id : Identifier} {dot : Dot} {c : T} :
    ∀ (l : List (Entry T)), seqInsert id dot c (seqInsert id dot c l) = seqInsert id dot c l
  | [] => by simp [seqInsert, identCmp_self]
  | e :: rest => by
    cases hc : identCmp e.id id with
    | lt => rw [seqInsert, hc]; rw [seqInsert, hc, seqInsert_idem rest]
    | eq => rw [seqInsert, hc]; rw [seqInsert, hc]
    | gt => rw [seqInsert, hc]; rw [seqInsert, identCmp_self]

theorem seqDelete_idem {id : Identifier} :
    ∀ {l : List (Entry T)}, SortedSeq l → seqDelete id (seqDelete id l) = seqDelete id l
  | [], _ => rfl
  | e :: rest, hs => by
    rw [SortedSeq, List.pairwise_cons] at hs
    obtain ⟨he, hrest⟩ := hs
    cases hc : identCmp e.id id with
    | lt => rw [seqDelete, hc]; rw [seqDelete, hc, seqDelete_idem hrest]
    | eq =>
      rw [seqDelete, hc]
      have heq : e.id = id := identCmp_eq_eq.mp hc
      refine seqDelete_absent fun y hy => fun hyid => ?_
      have h2 := he y hy
      rw [heq, hyid] at h2
      exact idLt_irrefl id h2
    | gt => rw [seqDelete, hc]; rw [seqDelete, hc]

/-! ### Commutation of the sorted scans -/

theorem seqInsert_comm {id1 id2 : Identifier} {d1 d2 : Dot} {c1 c2 : T} (hne : id1 ≠ id2) :
    ∀ (l : List (Entry T)),
      seqInsert id2 d2 c2 (seqInsert id1 d1 c1 l) = seqInsert id1 d1 c1 (seqInsert id2 d2 c2 l)
  | [] => by
    cases hc : identCmp id1 id2 with
    | lt => simp [seqInsert, hc, identCmp_gt_of_idLt hc]
    | eq => exact absurd (identCmp_eq_eq.mp hc) hne
    | gt => simp [seqInsert, hc, identCmp_eq_gt.mp hc]
  | e :: rest => by
    cases h1 : identCmp e.id id1 with
    | lt =>
      cases h2 : identCmp e.id id2 with
      | lt => simp [seqInsert, h1, h2, seqInsert_comm hne rest]
      | eq => simp [seqInsert, h1, h2]
      | gt =>
        have hcross : identCmp id2 id1 = .lt := idLt_trans (identCmp_eq_gt.mp h2) h1
        simp [seqInsert, h1, h2, hcross]
    | eq =>
      cases h2 : identCmp e.id id2 with
      | lt => simp [seqInsert, h1, h2]
      | eq => exact absurd ((identCmp_eq_eq.mp h1).symm.trans (identCmp_eq_eq.mp h2)) hne
      | gt =>
        have hcross : identCmp id2 id1 = .lt := by
          have h := identCmp_eq_gt.mp h2
          rwa [identCmp_eq_eq.mp h1] at h
        simp [seqInsert, h1, h2, hcross]
    | gt =>
      cases h2 : identCmp e.id id2 with
      | lt =>
        have hcross : identCmp id1 id2 = .lt := idLt_trans (identCmp_eq_gt.mp h1) h2
        simp [seqInsert, h1, h2, hcross]
      | eq =>
        have hcross : identCmp id1 id2 = .lt := by
          have h := identCmp_eq_gt.mp h1
          rwa [identCmp_eq_eq.mp h2] at h
        simp [seqInsert, h1, h2, hcross]
      | gt =>
        cases hc : identCmp id1 id2 with
        | lt => simp [seqInsert, h1, h2, hc, identCmp_gt_of_idLt hc]
        | eq => exact absurd (identCmp_eq_eq.mp hc) hne
        | gt => simp [seqInsert, h1, h2, hc, identCmp_eq_gt.mp hc]

theorem seqDelete_seqInsert_comm {id1 id2 : Identifier} {d : Dot} {c : T} (hne : id1 ≠ id2) :
    ∀ {l : List (Entry T)}, SortedSeq l →
      seqDelete id2 (seqInsert id1 d c l) = seqInsert id1 d c (seqDelete id2 l)
  | [], _ => by
    cases hc : identCmp id1 id2 with
    | lt => simp [seqInsert, seqDelete, hc]
    | eq => exact absurd (identCmp_eq_eq.mp hc) hne
    | gt => simp [seqInsert, seqDelete, hc]
  | e :: rest, hs => by
    rw [SortedSeq, List.pairwise_cons] at hs
    obtain ⟨he, hrest⟩ := hs
    cases h1 : identCmp e.id id1 with
    | lt =>
      cases h2 : identCmp e.id id2 with
      | lt => simp [seqInsert, seqDelete, h1, h2, seqDelete_seqInsert_comm hne hrest]
      | eq => simp [seqInsert, seqDelete, h1, h2]
      | gt => simp [seqInsert, seqDelete, h1, h2]
    | eq =>
      cases h2 : identCmp e.id id2 with
      | lt => simp [seqInsert, seqDelete, h1, h2]
      | eq => exact absurd ((identCmp_eq_eq.mp h1).symm.trans (identCmp_eq_eq.mp h2)) hne
      | gt => simp [seqInsert, seqDelete, h1, h2]
    | gt =>
      cases h2 : identCmp e.id id2 with
      | lt =>
        have hcross : identCmp id1 id2 = .lt := idLt_trans (identCmp_eq_gt.mp h1) h2
        simp [seqInsert, seqDelete, h1, h2, hcross]
      | eq =>
        have hcross : identCmp id1 id2 = .lt := by
          have h := identCmp_eq_gt.mp h1
          rwa [identCmp_eq_eq.mp h2] at h
        have hfront : ∀ y ∈ rest, idLt id1 y.id := by
          intro y hy
          exact idLt_trans (identCmp_eq_gt.mp h1) (he y hy)
        have : seqInsert id1 d c rest = ⟨id1, d, c⟩ :: rest := by
          simpa using @seqInsert_append T id1 d c [] rest (by simp) hfront
        simp [seqInsert, seqDelete, h1, h2, hcross, this]
      | gt =>
        cases hc : identCmp id1 id2 with
        | lt => simp [seqInsert, seqDelete, h1, h2, hc]
        | eq => exact absurd (identCmp_eq_eq.mp hc) hne
        | gt => simp [seqInsert, seqDelete, h1, h2, hc]

theorem seqDelete_comm {id1 id2 : Identifier} :
    ∀ {l : List (Entry T)}, SortedSeq l →
      seqDelete id2 (seqDelete id1 l) = seqDelete id1 (seqDelete id2 l)
  | [], _ => rfl
  | e :: rest, hs => by
    rw [SortedSeq, List.pairwise_cons] at hs
    obtain ⟨he, hrest⟩ := hs
    cases h1 : identCmp e.id id1 with
    | lt =>
      cases h2 : identCmp e.id id2 with
      | lt => simp [seqDelete, h1, h2, seqDelete_comm hrest]
      | eq => simp [seqDelete, h1, h2]
      | gt => simp [seqDelete, h1, h2]
    | eq =>
      cases h2 : identCmp e.id id2 with
      | lt => simp [seqDelete, h1, h2]
      | eq =>
        have : id1 = id2 := (identCmp_eq_eq.mp h1).symm.trans (identCmp_eq_eq.mp h2)
        subst this
        simp [seqDelete, h1]
      | gt =>
        have habs : seqDelete id2 rest = rest := by
          refine seqDelete_absent fun y hy hyid => ?_
          have h := idLt_trans (identCmp_eq_gt.mp h2) (he y hy)
          rw [hyid] at h
          exact idLt_irrefl id2 h
        simp [seqDelete, h1, h2, habs]
    | gt =>
      cases h2 : identCmp e.id id2 with
      | lt => simp [seqDelete, h1, h2]
      | eq =>
        have habs : seqDelete id1 rest = rest := by
          refine seqDelete_absent fun y hy hyid => ?_
          have h := idLt_trans (identCmp_eq_gt.mp h1) (he y hy)
          rw [hyid] at h
          exact idLt_irrefl id1 h
        simp [seqDelete, h1, h2, habs]
      | gt => simp [seqDelete, h1, h2]

/-! ### Reachable replica states -/

/-- States reachable from `LSeq::new` by local inserts, local deletes and
remote operation application. -/
inductive Reachable {T : Type} : LSeq T → Prop
  | new (id : Nat) (strat : Nat → Bool) (steps : Nat → Nat) :
      Reachable (LSeq.new T id strat steps)
  | applyOp {s : LSeq T} (op : Op T) : Reachable s → Reachable (s.apply op)
  | insertIx {s s' : LSeq T} {op : Op T} (ix : Nat) (c : T) : Reachable s →
      s.insert_index ix c = some (op, s') → Reachable s'
  | deleteIx {s s' : LSeq T} {op : Op T} (ix : Nat) : Reachable s →
      s.delete_index ix = some (op, s') → Reachable s'

theorem apply_seq (s : LSeq T) (op : Op T) :
    (s.apply op).seq = match op with
      | .Insert id dot c => seqInsert id dot c s.seq
      | .Delete _ id _ => seqDelete id s.seq := by
  cases op <;> rfl

theorem apply_gen (s : LSeq T) (op : Op T) : (s.apply op).gen = s.gen := by
  cases op <;> rfl

theorem apply_dot (s : LSeq T) (op : Op T) : (s.apply op).dot = s.dot := by
  cases op <;> rfl

theorem apply_sorted {s : LSeq T} (hs : SortedSeq s.seq) (op : Op T) :
    SortedSeq (s.apply op).seq := by
  cases op with
  | Insert id dot c => exact seqInsert_sorted hs
  | Delete r id dot => exact seqDelete_sorted hs

/-! ### Indexing helpers -/

theorem sorted_lt_of_getElem {l : List (Entry T)} (hs : SortedSeq l) {i j : Nat}
    (hi : i < l.length) (hj : j < l.length) (hij : i < j) : idLt l[i].id l[j].id :=
  List.pairwise_iff_getElem.mp hs i j hi hj hij

theorem mem_take_getElem {α : Type} {l : List α} {k : Nat} {x : α} (h : x ∈ l.take k) :
    ∃ (j : Nat) (hj : j < l.length), j < k ∧ l[j] = x := by
  obtain ⟨j, hjlen, hjx⟩ := List.mem_iff_getElem.mp h
  rw [List.length_take] at hjlen
  have hj : j < l.length := by omega
  refine ⟨j, hj, by omega, ?_⟩
  rw [← hjx, List.getElem_take]

theorem mem_drop_getElem {α : Type} {l : List α} {k : Nat} {x : α} (h : x ∈ l.drop k) :
    ∃ (j : Nat) (hj : k + j < l.length), l[k + j] = x := by
  obtain ⟨j, hjlen, hjx⟩ := List.mem_iff_getElem.mp h
  rw [List.length_drop] at hjlen
  have hj : k + j < l.length := by omega
  refine ⟨j, hj, ?_⟩
  rw [← hjx, List.getElem_drop ..]

/-! ### Local insertion characterized -/

theorem endIdent_wf : lastIdxPos endIdent = true := by decide

theorem insert_index_spec {T : Type} (s : LSeq T) (ix : Nat) (c : T) (hinv : Inv s) :
    ∃ a : Identifier,
      (∀ e ∈ s.seq.take (min ix s.seq.length), idLt e.id a) ∧
      (∀ e ∈ s.seq.drop (min ix s.seq.length), idLt a e.id) ∧
      s.insert_index ix c = some (.Insert a s.dot c,
        { seq := s.seq.take (min ix s.seq.length) ++
            ⟨a, s.dot, c⟩ :: s.seq.drop (min ix s.seq.length),
          gen := s.gen, dot := ⟨s.dot.actor, s.dot.counter + 1⟩ }) := by
  obtain ⟨hsort, hwf⟩ := hinv
  by_cases hlen : s.seq.length ≤ ix
  · -- append branch
    have hk : min ix s.seq.length = s.seq.length := Nat.min_eq_right hlen
    rw [hk, List.take_length, List.drop_length]
    rcases List.eq_nil_or_concat s.seq with hnil | ⟨L, b, hcat⟩
    · refine ⟨s.gen.alloc beginIdent endIdent, by simp [hnil], by simp, ?_⟩
      simp [LSeq.insert_index, hlen, hnil, IdentGen.lower, IdentGen.upper, LSeq.apply,
        LSeq.insert, seqInsert]
    · rw [List.concat_eq_append] at hcat
      have hbmem : b ∈ s.seq := by rw [hcat]; exact List.mem_append_right _ (by simp)
      have hbwf := hwf b hbmem
      have hgap := alloc_gap s.gen b.id endIdent hbwf.2.1 endIdent_wf
      refine ⟨s.gen.alloc b.id endIdent, ?_, by simp, ?_⟩
      · intro e he
        rw [hcat] at he
        have hsort' := hsort
        rw [hcat, SortedSeq, List.pairwise_append] at hsort'
        rcases List.mem_append.mp he with heL | heb
        · exact idLt_trans (hsort'.2.2 e heL b (by simp)) hgap.1
        · have : e = b := by simpa using heb
          subst this
          exact hgap.1
      · have hlast : s.seq.getLast? = some b := by rw [hcat]; exact List.getLast?_concat L
        have hall : ∀ e ∈ s.seq, idLt e.id (s.gen.alloc b.id endIdent) := by
          intro e he
          rw [hcat] at he
          have hsort' := hsort
          rw [hcat, SortedSeq, List.pairwise_append] at hsort'
          rcases List.mem_append.mp he with heL | heb
          · exact idLt_trans (hsort'.2.2 e heL b (by simp)) hgap.1
          · have : e = b := by simpa using heb
            subst this
            exact hgap.1
        have hseq' : seqInsert (s.gen.alloc b.id endIdent) s.dot c s.seq =
            s.seq ++ [⟨s.gen.alloc b.id endIdent, s.dot, c⟩] := by
          have h := @seqInsert_append T (s.gen.alloc b.id endIdent) s.dot c s.seq []
            hall (by simp)
          simpa using h
        simp [LSeq.insert_index, hlen, hlast, IdentGen.lower, IdentGen.upper, LSeq.apply,
          LSeq.insert, hseq']
  · -- interior branch
    push_neg at hlen
    have hk : min ix s.seq.length = ix := Nat.min_eq_left (Nat.le_of_lt hlen)
    rw [hk]
    have hnext : s.seq[ix]? = some s.seq[ix] := List.getElem?_eq_getElem hlen
    have hNmem : s.seq[ix] ∈ s.seq := List.getElem_mem hlen
    have hnextwf := hwf _ hNmem
    have hdropbound : ∀ (a : Identifier), idLt a s.seq[ix].id →
        ∀ e ∈ s.seq.drop ix, idLt a e.id := by
      intro a ha e he
      obtain ⟨j, hj, hjx⟩ := mem_drop_getElem he
      rcases Nat.eq_zero_or_pos j with rfl | hjpos
      · rw [← hjx]; simpa using ha
      · refine idLt_trans ha ?_
        rw [← hjx]
        exact sorted_lt_of_getElem hsort hlen hj (by omega)
    cases ix with
    | zero =>
      have hpn : idLt beginIdent s.seq[0].id := hnextwf.1
      have hgap := alloc_gap s.gen beginIdent _ hpn hnextwf.2.2
      refine ⟨s.gen.alloc beginIdent s.seq[0].id, by simp, hdropbound _ hgap.2, ?_⟩
      have hsplit := List.take_append_drop 0 s.seq
      have hins := @seqInsert_append T (s.gen.alloc beginIdent s.seq[0].id) s.dot c
        (s.seq.take 0) (s.seq.drop 0) (by simp) (hdropbound _ hgap.2)
      rw [hsplit] at hins
      simp only [LSeq.insert_index, IdentGen.lower, IdentGen.upper, hnext,
        Option.map_some', Option.getD_some]
      rw [if_neg (by omega)]
      rw [if_pos ⟨hgap.1, hgap.2⟩]
      simp [LSeq.apply, LSeq.insert, hins]
    | succ i =>
      have hi : i < s.seq.length := by omega
      have hpn : idLt s.seq[i].id s.seq[i + 1].id :=
        sorted_lt_of_getElem hsort hi hlen (by omega)
      have hgap := alloc_gap s.gen s.seq[i].id _ hpn hnextwf.2.2
      have hprev : s.seq[i]? = some s.seq[i] := List.getElem?_eq_getElem hi
      have htakebound : ∀ e ∈ s.seq.take (i + 1),
          idLt e.id (s.gen.alloc s.seq[i].id s.seq[i + 1].id) := by
        intro e he
        obtain ⟨j, hj, hjk, hjx⟩ := mem_take_getElem he
        rcases Nat.lt_or_ge j i with hji | hji
        · refine idLt_trans ?_ hgap.1
          rw [← hjx]
          exact sorted_lt_of_getElem hsort hj hi hji
        · have : j = i := by omega
          subst this
          rw [← hjx]
          exact hgap.1
      refine ⟨s.gen.alloc s.seq[i].id s.seq[i + 1].id, htakebound,
        hdropbound _ hgap.2, ?_⟩
      have hsplit := List.take_append_drop (i + 1) s.seq
      have hins := @seqInsert_append T (s.gen.alloc s.seq[i].id s.seq[i + 1].id)
        s.dot c (s.seq.take (i + 1)) (s.seq.drop (i + 1))
        htakebound (hdropbound _ hgap.2)
      rw [hsplit] at hins
      simp only [LSeq.insert_index, IdentGen.lower, IdentGen.upper, hprev, hnext,
        Option.map_some', Option.getD_some]
      rw [if_neg (by omega)]
      rw [if_pos ⟨hgap.1, hgap.2⟩]
      simp [LSeq.apply, LSeq.insert, hins]

/-! ### Local deletion characterized -/

theorem delete_index_none {s : LSeq T} {ix : Nat} (hlen : s.seq.length ≤ ix) :
    s.delete_index ix = none := by
  simp [LSeq.delete_index, hlen]

theorem delete_index_some {s : LSeq T} {ix : Nat} (hlen : ix < s.seq.length) :
    s.delete_index ix = some (.Delete s.seq[ix].dot s.seq[ix].id s.dot,
      { seq := seqDelete s.seq[ix].id s.seq, gen := s.gen,
        dot := ⟨s.dot.actor, s.dot.counter + 1⟩ }) := by
  simp only [LSeq.delete_index, List.getElem?_eq_getElem hlen, Option.map_some']
  rw [if_neg (by omega)]
  simp [LSeq.apply, LSeq.delete]

/-! ### Dots of locally produced operations -/

theorem insert_index_dot {s s' : LSeq T} {ix : Nat} {c : T} {op : Op T}
    (h : s.insert_index ix c = some (op, s')) :
    op.opDot = s.dot ∧ s'.dot = ⟨s.dot.actor, s.dot.counter + 1⟩ ∧ s'.gen = s.gen := by
  simp only [LSeq.insert_index, Option.map_eq_some'] at h
  obtain ⟨a, _, hf⟩ := h
  rw [Prod.ext_iff] at hf
  obtain ⟨hop, hs'⟩ := hf
  simp only at hop hs'
  subst hop hs'
  refine ⟨rfl, ?_, ?_⟩
  · rw [apply_dot]
  · rw [apply_gen]

theorem delete_index_dot {s s' : LSeq T} {ix : Nat} {op : Op T}
    (h : s.delete_index ix = some (op, s')) :
    op.opDot = s.dot ∧ s'.dot = ⟨s.dot.actor, s.dot.counter + 1⟩ ∧ s'.gen = s.gen := by
  simp only [LSeq.delete_index] at h
  by_cases hlen : s.seq.length ≤ ix
  · rw [if_pos hlen] at h
    exact absurd h (by simp)
  · rw [if_neg hlen] at h
    rw [Option.map_eq_some'] at h
    obtain ⟨data, _, hf⟩ := h
    rw [Prod.ext_iff] at hf
    obtain ⟨hop, hs'⟩ := hf
    simp only at hop hs'
    subst hop hs'
    refine ⟨rfl, ?_, ?_⟩
    · rw [apply_dot]
    · rw [apply_gen]

/-! ### Traces of local calls -/

/-- A local call made by the application: an indexed insert or delete. -/
inductive LocalCall (T : Type) where
  | ins (ix : Nat) (c : T)
  | del (ix : Nat)

/-- Perform one local call. -/
def localStep (s : LSeq T) : LocalCall T → Option (Op T × LSeq T)
  | .ins ix c => s.insert_index ix c
  | .del ix => s.delete_index ix

/-- Run a list of local calls from a state, collecting the operations the
successful calls emit. -/
def runLocals (s : LSeq T) : List (LocalCall T) → List (Op T) × LSeq T
  | [] => ([], s)
  | call :: calls =>
    match localStep s call with
    | none => runLocals s calls
    | some (op, s') =>
      let r := runLocals s' calls
      (op :: r.1, r.2)

theorem localStep_dot {s s' : LSeq T} {call : LocalCall T} {op : Op T}
    (h : localStep s call = some (op, s')) :
    op.opDot = s.dot ∧ s'.dot = ⟨s.dot.actor, s.dot.counter + 1⟩ ∧ s'.gen = s.gen := by
  cases call with
  | ins ix c => exact insert_index_dot h
  | del ix => exact delete_index_dot h

theorem runLocals_dots :
    ∀ (calls : List (LocalCall T)) (s : LSeq T),
      (∀ o ∈ (runLocals s calls).1, o.opDot.actor = s.dot.actor ∧
        s.dot.counter ≤ o.opDot.counter ∧
        o.opDot.counter < (runLocals s calls).2.dot.counter) ∧
      (runLocals s calls).2.dot.actor = s.dot.actor ∧
      s.dot.counter ≤ (runLocals s calls).2.dot.counter ∧
      List.Pairwise (fun o1 o2 => o1.opDot.counter < o2.opDot.counter) (runLocals s calls).1
  | [], s => by simp [runLocals]
  | call :: calls, s => by
    cases h : localStep s call with
    | none =>
      have ih := runLocals_dots calls s
      simpa [runLocals, h] using ih
    | some r =>
      obtain ⟨op, s'⟩ := r
      obtain ⟨hop, hdot, hgen⟩ := localStep_dot h
      have ih := runLocals_dots calls s'
      rw [runLocals, h]
      simp only
      obtain ⟨ihops, ihactor, ihcounter, ihpw⟩ := ih
      have hactor : s'.dot.actor = s.dot.actor := by rw [hdot]
      have hcount : s'.dot.counter = s.dot.counter + 1 := by rw [hdot]
      refine ⟨?_, by rwa [hactor] at ihactor, by omega, ?_⟩
      · intro o ho
        rcases List.mem_cons.mp ho with rfl | ho
        · exact ⟨by rw [hop], by rw [hop], by rw [hop]; omega⟩
        · obtain ⟨h1, h2, h3⟩ := ihops o ho
          exact ⟨by rw [h1, hactor], by omega, h3⟩
      · refine List.Pairwise.cons ?_ ihpw
        intro o ho
        obtain ⟨h1, h2, h3⟩ := ihops o ho
        rw [hop]
        omega

/-! ### The older container variant, translated from src/src/lseq/mod.rs -/

/-- An entry of the older variant: the tuple
`(Identifier, u64, u32, T)` — identifier, clock, site id, element. -/
structure OldEntry (T : Type) where
  id : Identifier
  clock : Nat
  site : Nat
  c : T

/-- The older `LSeq`: entry sequence, generator and a plain clock. -/
structure OldLSeq (T : Type) where
  seq : List (OldEntry T)
  gen : IdentGen
  clock : Nat

/-- The older `Op` enum. -/
inductive OldOp (T : Type) where
  | Insert (id : Identifier) (clock : Nat) (site_id : Nat) (c : T)
  | Delete (remote : Nat × Nat) (id : Identifier) (site_id : Nat) (clock : Nat)

/-- The binary search and conditional insert of `do_insert` (same scan
contract as `seqInsert`, over the older entry tuples). -/
def oldSeqInsert (id : Identifier) (clock site : Nat) (c : T) :
    List (OldEntry T) → List (OldEntry T)
  | [] => [⟨id, clock, site, c⟩]
  | e :: rest =>
    match identCmp e.id id with
    | .lt => e :: oldSeqInsert id clock site c rest
    | .eq => e :: rest
    | .gt => ⟨id, clock, site, c⟩ :: e :: rest

/-- The binary search and conditional removal of `do_delete`. -/
def oldSeqDelete (id : Identifier) : List (OldEntry T) → List (OldEntry T)
  | [] => []
  | e :: rest =>
    match identCmp e.id id with
    | .lt => e :: oldSeqDelete id rest
    | .eq => rest
    | .gt => e :: rest

/-- `LSeq::do_insert` of the older variant. -/
def OldLSeq.do_insert (s : OldLSeq T) (ix : Identifier) (clock site : Nat) (c : T) : OldLSeq T :=
  { s with seq := oldSeqInsert ix clock site c s.seq }

/-- `LSeq::do_delete` of the older variant. -/
def OldLSeq.do_delete (s : OldLSeq T) (ix : Identifier) : OldLSeq T :=
  { s with seq := oldSeqDelete ix s.seq }

/-- `LSeq::apply` of the older variant. -/
def OldLSeq.apply (s : OldLSeq T) : OldOp T → OldLSeq T
  | .Insert id clock site c => s.do_insert id clock site c
  | .Delete _ id _ _ => s.do_delete id

/-- `LSeq::local_delete` of the older variant.  An out-of-range index is
clamped with `ix = self.seq.len() - 1`; on an empty replica that
subtraction underflows the unsigned index and the subsequent
`self.seq[ix]` access fails (a panic, modelled by `none` — the source
signature returns a bare `Op`, so it has no graceful absence channel). -/
def OldLSeq.local_delete (s : OldLSeq T) (ix : Nat) : Option (OldOp T × OldLSeq T) :=
  let ix' := if s.seq.length ≤ ix then s.seq.length - 1 else ix
  (s.seq[ix']?).map fun data =>
    let op : OldOp T := .Delete (data.site, data.clock) data.id s.gen.site_id s.clock
    let s' : OldLSeq T := { s with clock := s.clock + 1 }
    (op, s'.apply op)

/-- Sorted storage for the older variant. -/
def OldSorted (l : List (OldEntry T)) : Prop :=
  List.Pairwise (fun e1 e2 => idLt e1.id e2.id) l

theorem oldSeqDelete_append {id : Identifier} {E : OldEntry T} (hE : E.id = id) :
    ∀ {l1 l2 : List (OldEntry T)}, (∀ e ∈ l1, idLt e.id id) →
      oldSeqDelete id (l1 ++ E :: l2) = l1 ++ l2
  | [], l2, _ => by
    have : identCmp E.id id = .eq := by rw [hE]; exact identCmp_self id
    simp [oldSeqDelete, this]
  | e :: l1, l2, h1 => by
    have he : identCmp e.id id = .lt := h1 e (by simp)
    simp only [List.cons_append, oldSeqDelete, he, List.append_eq]
    rw [oldSeqDelete_append hE (fun x hx => h1 x (by simp [hx]))]

/-! ### Remaining support lemmas -/

instance entry_lt_trans {T : Type} : IsTrans (Entry T) (fun e1 e2 => idLt e1.id e2.id) :=
  ⟨fun _ _ _ h1 h2 => idLt_trans h1 h2⟩

theorem insertIdx_take_drop {α : Type} (k : Nat) (a : α) :
    ∀ (l : List α), k ≤ l.length → List.insertIdx k a l = l.take k ++ a :: l.drop k := by
  induction k with
  | zero => intro l _; simp
  | succ m ih =>
    intro l hl
    cases l with
    | nil => simp at hl
    | cons x xs =>
      simp only [List.insertIdx_succ_cons, List.take_succ_cons, List.drop_succ_cons,
        List.cons_append, List.cons.injEq, true_and]
      exact ih xs (by simpa using hl)

theorem insert_index_seq {s s' : LSeq T} {ix : Nat} {c : T} {op : Op T}
    (h : s.insert_index ix c = some (op, s')) :
    ∃ a : Identifier, op = .Insert a s.dot c ∧ s'.seq = seqInsert a s.dot c s.seq := by
  simp only [LSeq.insert_index, Option.map_eq_some'] at h
  obtain ⟨a, _, hf⟩ := h
  rw [Prod.ext_iff] at hf
  obtain ⟨hop, hs'⟩ := hf
  simp only at hop hs'
  exact ⟨a, hop.symm, by rw [← hs']; rfl⟩

theorem delete_index_seq {s s' : LSeq T} {ix : Nat} {op : Op T}
    (h : s.delete_index ix = some (op, s')) :
    ∃ id : Identifier, s'.seq = seqDelete id s.seq := by
  simp only [LSeq.delete_index] at h
  by_cases hlen : s.seq.length ≤ ix
  · rw [if_pos hlen] at h
    exact absurd h (by simp)
  · rw [if_neg hlen] at h
    rw [Option.map_eq_some'] at h
    obtain ⟨data, _, hf⟩ := h
    rw [Prod.ext_iff] at hf
    obtain ⟨hop, hs'⟩ := hf
    simp only at hop hs'
    exact ⟨data.id, by rw [← hs']; rfl⟩

/-! ### The claims -/

/-- C1: for every pair of identifiers `p < q` (sentinels allowed, `q` a
real identifier or `END`), `alloc(p, q)` returns `r` with `p < r < q`,
never equal to either bound; consequently the two assertions
`prev < a` and `a < next` in `insert_index` never fail on a replica state
satisfying the data-model invariants, at any index: `insert_index` always
produces an operation rather than panicking. -/
theorem alloc_gap_and_asserts :
    (∀ (g : IdentGen) (p q : Identifier), idLt p q → lastIdxPos q = true →
      idLt p (g.alloc p q) ∧ idLt (g.alloc p q) q) ∧
    (∀ (T : Type) (s : LSeq T) (ix : Nat) (c : T), Inv s →
      (s.insert_index ix c).isSome = true) := by
  refine ⟨fun g p q h1 h2 => alloc_gap g p q h1 h2, fun T s ix c hinv => ?_⟩
  obtain ⟨a, _, _, heq⟩ := insert_index_spec s ix c hinv
  simp [heq]

/-- C2: every replica reachable from `new()` by local inserts, local
deletes and remote applications keeps its entries strictly ordered by
identifier (adjacent entries increase), hence identifiers are pairwise
distinct. -/
theorem reachable_sorted {T : Type} (s : LSeq T) (h : Reachable s) :
    List.Chain' (fun e1 e2 => idLt e1.id e2.id) s.seq ∧
    List.Pairwise (fun i1 i2 => i1 ≠ i2) (s.seq.map Entry.id) := by
  have hp : SortedSeq s.seq := by
    induction h with
    | new id strat steps => simp [LSeq.new, SortedSeq]
    | applyOp op _ ih => exact apply_sorted ih op
    | insertIx ix c _ hsome ih =>
      obtain ⟨a, _, hseq⟩ := insert_index_seq hsome
      rw [SortedSeq, hseq]
      exact seqInsert_sorted ih
    | deleteIx ix _ hsome ih =>
      obtain ⟨id, hseq⟩ := delete_index_seq hsome
      rw [SortedSeq, hseq]
      exact seqDelete_sorted ih
  refine ⟨List.chain'_iff_pairwise.mpr hp, ?_⟩
  rw [List.pairwise_map]
  exact hp.imp (fun h => idLt_ne h)

/-- C3: two causally-independent operations — any two that do not form an
insert/delete or insert/insert pair on the same identifier — applied in
either order to the same (sorted) replica state yield the same state. -/
theorem apply_commutes {T : Type} (s : LSeq T) (o1 o2 : Op T) (hs : SortedSeq s.seq)
    (hind : o1.opId ≠ o2.opId ∨ (o1.isDelete ∧ o2.isDelete)) :
    (s.apply o1).apply o2 = (s.apply o2).apply o1 := by
  cases o1 with
  | Insert id1 d1 c1 =>
    cases o2 with
    | Insert id2 d2 c2 =>
      rcases hind with hne | ⟨hdel, _⟩
      · simp only [Op.opId, ne_eq] at hne
        simp [LSeq.apply, LSeq.insert, seqInsert_comm hne s.seq]
      · exact hdel.elim
    | Delete r2 id2 dd2 =>
      rcases hind with hne | ⟨hdel, _⟩
      · simp only [Op.opId, ne_eq] at hne
        simp [LSeq.apply, LSeq.insert, LSeq.delete, seqDelete_seqInsert_comm hne hs]
      · exact hdel.elim
  | Delete r1 id1 dd1 =>
    cases o2 with
    | Insert id2 d2 c2 =>
      rcases hind with hne | ⟨_, hdel⟩
      · simp only [Op.opId, ne_eq] at hne
        simp [LSeq.apply, LSeq.insert, LSeq.delete,
          (seqDelete_seqInsert_comm (Ne.symm hne) hs).symm]
      · exact hdel.elim
    | Delete r2 id2 dd2 =>
      simp [LSeq.apply, LSeq.delete, seqDelete_comm hs]

/-- C4: `apply` is idempotent on (sorted) replica states: applying the
same operation twice in a row equals applying it once. -/
theorem apply_idempotent {T : Type} (s : LSeq T) (op : Op T) (hs : SortedSeq s.seq) :
    (s.apply op).apply op = s.apply op := by
  cases op with
  | Insert id dot c => simp [LSeq.apply, LSeq.insert, seqInsert_idem s.seq]
  | Delete r id dot => simp [LSeq.apply, LSeq.delete, seqDelete_idem hs]

/-- C5: applying an `Insert` whose identifier is already present leaves
the replica exactly unchanged, and applying a `Delete` whose identifier is
absent (in particular the delete of a never-seen insert) leaves the
replica exactly unchanged, raising no error. -/
theorem apply_noop_duplicate_absent {T : Type} (s : LSeq T) (hs : SortedSeq s.seq) :
    (∀ (id : Identifier) (d : Dot) (c : T), (∃ e ∈ s.seq, e.id = id) →
      s.apply (.Insert id d c) = s) ∧
    (∀ (r : Dot) (id : Identifier) (d : Dot), (∀ e ∈ s.seq, e.id ≠ id) →
      s.apply (.Delete r id d) = s) := by
  constructor
  · intro id d c hex
    simp [LSeq.apply, LSeq.insert, seqInsert_present hs hex]
  · intro r id d habs
    simp [LSeq.apply, LSeq.delete, seqDelete_absent habs]

/-- C6: a local delete at any index at or past the length produces no
operation — the absence is reported through the `Option`, not an
exception, and no state change takes place. -/
theorem delete_index_out_of_range {T : Type} (s : LSeq T) (ix : Nat)
    (h : s.len ≤ ix) : s.delete_index ix = none :=
  delete_index_none h

/-- C7: local inserts clamp the index to `[0, len]`: on a replica state
satisfying the invariants, `insert_index ix c` succeeds and places `c` at
position `min ix len` of the iteration order (an index past the end
appends). -/
theorem insert_index_clamps {T : Type} (s : LSeq T) (ix : Nat) (c : T) (hinv : Inv s) :
    ∃ (op : Op T) (s' : LSeq T), s.insert_index ix c = some (op, s') ∧
      s'.iter = (s.iter).insertIdx (min ix s.iter.length) c := by
  obtain ⟨a, _, _, heq⟩ := insert_index_spec s ix c hinv
  refine ⟨_, _, heq, ?_⟩
  have hlen : s.iter.length = s.seq.length := by simp [LSeq.iter]
  rw [hlen]
  rw [insertIdx_take_drop _ _ _ (by rw [hlen]; exact Nat.min_le_right _ _)]
  simp [LSeq.iter, List.map_take, List.map_drop]

/-- C9: the replica starts with counter 0; every successful local insert
and local delete embeds the current counter in the emitted dot and then
increments the counter, so along any sequence of local calls the emitted
dots carry strictly increasing counters, all with the replica's own site
as actor — no `(site, counter)` pair is emitted twice. -/
theorem dots_fresh :
    (∀ (T : Type) (id : Nat) (strat : Nat → Bool) (steps : Nat → Nat),
      (LSeq.new T id strat steps).dot = ⟨id, 0⟩) ∧
    (∀ (T : Type) (s s' : LSeq T) (ix : Nat) (c : T) (op : Op T),
      s.insert_index ix c = some (op, s') →
      op.opDot = s.dot ∧ s'.dot = ⟨s.dot.actor, s.dot.counter + 1⟩) ∧
    (∀ (T : Type) (s s' : LSeq T) (ix : Nat) (op : Op T),
      s.delete_index ix = some (op, s') →
      op.opDot = s.dot ∧ s'.dot = ⟨s.dot.actor, s.dot.counter + 1⟩) ∧
    (∀ (T : Type) (s : LSeq T) (calls : List (LocalCall T)),
      List.Pairwise (fun o1 o2 => o1.opDot.counter < o2.opDot.counter) (runLocals s calls).1 ∧
      List.Pairwise (fun o1 o2 => o1.opDot ≠ o2.opDot) (runLocals s calls).1 ∧
      ∀ o ∈ (runLocals s calls).1, o.opDot.actor = s.dot.actor) := by
  refine ⟨fun T id strat steps => rfl,
    fun T s s' ix c op h => ⟨(insert_index_dot h).1, (insert_index_dot h).2.1⟩,
    fun T s s' ix op h => ⟨(delete_index_dot h).1, (delete_index_dot h).2.1⟩,
    fun T s calls => ?_⟩
  obtain ⟨hops, _, _, hpw⟩ := runLocals_dots calls s
  refine ⟨hpw, ?_, fun o ho => (hops o ho).1⟩
  refine hpw.imp (fun h => ?_)
  intro heq
  rw [heq] at h
  omega

/-! ### The insert–delete round trip -/

/-- The payload sequence after `insert_index ix c` followed by
`delete_index ix` with no intervening operations; a failed delete
(producing no operation) leaves the state of the insert. -/
def afterInsertDelete (s : LSeq T) (ix : Nat) (c : T) : Option (List T) :=
  (s.insert_index ix c).map fun r =>
    match r.2.delete_index ix with
    | some r2 => r2.2.iter
    | none => r.2.iter

/-- C8 (amended): on a replica state satisfying the invariants and an
index `ix ≤ len`, `insert_index ix c` immediately followed by
`delete_index ix` succeeds and restores the payload sequence that held
before the insert. -/
theorem roundtrip_restores {T : Type} (s : LSeq T) (ix : Nat) (c : T) (hinv : Inv s)
    (hix : ix ≤ s.seq.length) :
    ∃ (o1 : Op T) (t : LSeq T) (o2 : Op T) (u : LSeq T),
      s.insert_index ix c = some (o1, t) ∧ t.delete_index ix = some (o2, u) ∧
      u.iter = s.iter := by
  obtain ⟨a, htake, hdrop, heq⟩ := insert_index_spec s ix c hinv
  have hmin : min ix s.seq.length = ix := Nat.min_eq_left hix
  rw [hmin] at htake hdrop heq
  have hL1 : (s.seq.take ix).length = ix := by
    rw [List.length_take]; omega
  have hlen1 : (s.seq.take ix ++ (⟨a, s.dot, c⟩ : Entry T) :: s.seq.drop ix).length =
      s.seq.length + 1 := by
    rw [List.length_append, hL1]
    simp [List.length_drop]
    omega
  have hlt : ix < (s.seq.take ix ++ (⟨a, s.dot, c⟩ : Entry T) :: s.seq.drop ix).length := by
    omega
  have hget : (s.seq.take ix ++ (⟨a, s.dot, c⟩ : Entry T) :: s.seq.drop ix)[ix] =
      ⟨a, s.dot, c⟩ := by
    rw [List.getElem_append_right (by omega)]
    simp [hL1]
  have hdel := delete_index_some (s :=
    { seq := s.seq.take ix ++ (⟨a, s.dot, c⟩ : Entry T) :: s.seq.drop ix, gen := s.gen,
      dot := ⟨s.dot.actor, s.dot.counter + 1⟩ }) hlt
  rw [hget] at hdel
  refine ⟨_, _, _, _, heq, hdel, ?_⟩
  have hrem : seqDelete a
      (s.seq.take ix ++ (⟨a, s.dot, c⟩ : Entry T) :: s.seq.drop ix) =
      s.seq.take ix ++ s.seq.drop ix :=
    @seqDelete_append T a ⟨a, s.dot, c⟩ rfl (s.seq.take ix) (s.seq.drop ix) htake
  simp [LSeq.iter, hrem, List.take_append_drop]

/-- C10 helper: the older variant is in src, but its allocator state is
still the spec-modelled `IdentGen`; this sample drives the witnesses. -/
def wStrat : Nat → Bool := fun _ => true

/-- A fixed injected random source for the witnesses. -/
def wSteps : Nat → Nat := fun _ => 0

/-- The empty replica of site 1 used by the witnesses. -/
def w0 : LSeq Char := LSeq.new Char 1 wStrat wSteps

/-- The replica of site 1 holding one entry, as produced by
`w0.insert_index 0 a`. -/
def w1 : LSeq Char :=
  { seq := [⟨[(1, 1)], ⟨1, 0⟩, 'a'⟩], gen := ⟨1, wStrat, wSteps⟩, dot := ⟨1, 1⟩ }

theorem w0_inv : Inv w0 := ⟨List.Pairwise.nil, by simp [w0, LSeq.new]⟩

theorem w1_sorted : SortedSeq w1.seq := by simp [w1, SortedSeq]

theorem w1_inv : Inv w1 := by
  refine ⟨w1_sorted, ?_⟩
  intro e he
  simp only [w1, List.mem_singleton] at he
  subst he
  exact ⟨by decide, by decide, by decide⟩

/-- C8 (counterexample): on the empty replica, `insert_index 1 'a'`
clamps and appends, but the follow-up `delete_index 1` is out of range
and produces no operation, so the round trip leaves `['a']` instead of
restoring the empty payload sequence. -/
theorem roundtrip_fails_past_end :
    afterInsertDelete w0 1 'a' = some ['a'] ∧ w0.iter = [] := ⟨rfl, rfl⟩

/-! ### C10: the older local delete -/

/-- C10: the older variant's `local_delete` is not total: on a non-empty
(sorted) replica an index at or past the length is clamped to the last
element, which is deleted and referenced by the emitted operation; on the
empty replica the clamp `len - 1` underflows the unsigned index and the
call fails (modelled by `none`) instead of reporting absence. -/
theorem old_local_delete_clamps :
    (∀ (T : Type) (s : OldLSeq T) (ix : Nat), s.seq = [] → s.local_delete ix = none) ∧
    (∀ (T : Type) (s : OldLSeq T) (ix : Nat) (hne : s.seq ≠ []), OldSorted s.seq →
      s.seq.length ≤ ix →
      s.local_delete ix = some
        (.Delete ((s.seq.getLast hne).site, (s.seq.getLast hne).clock)
            (s.seq.getLast hne).id s.gen.site_id s.clock,
          { seq := s.seq.dropLast, gen := s.gen, clock := s.clock + 1 })) := by
  constructor
  · intro T s ix hnil
    simp [OldLSeq.local_delete, hnil]
  · intro T s ix hne hsort hix
    have hlast : s.seq[s.seq.length - 1]? = some (s.seq.getLast hne) := by
      rw [← List.getLast?_eq_getElem?, List.getLast?_eq_getLast s.seq hne]
    have hsplit : s.seq.dropLast ++ [s.seq.getLast hne] = s.seq :=
      List.dropLast_append_getLast hne
    have hbound : ∀ e ∈ s.seq.dropLast, idLt e.id (s.seq.getLast hne).id := by
      intro e he
      have hs2 := hsort
      rw [OldSorted, ← hsplit, List.pairwise_append] at hs2
      exact hs2.2.2 e he _ (by simp)
    have hrem : oldSeqDelete (s.seq.getLast hne).id s.seq = s.seq.dropLast := by
      have h := @oldSeqDelete_append T ((s.seq.getLast hne).id) (s.seq.getLast hne) rfl
        s.seq.dropLast [] hbound
      rw [hsplit] at h
      simpa using h
    simp only [OldLSeq.local_delete, if_pos hix, hlast, Option.map_some']
    simp [OldLSeq.apply, OldLSeq.do_delete, hrem]

/-! ### Witnesses -/

/-- Witness for C1, at site 1 with the sentinels as bounds and at the
empty replica. -/
theorem alloc_gap_and_asserts_witness :
    (idLt beginIdent ((IdentGen.mk 1 wStrat wSteps).alloc beginIdent endIdent) ∧
      idLt ((IdentGen.mk 1 wStrat wSteps).alloc beginIdent endIdent) endIdent) ∧
    (w0.insert_index 0 'a').isSome = true :=
  ⟨alloc_gap_and_asserts.1 ⟨1, wStrat, wSteps⟩ beginIdent endIdent (by decide) (by decide),
   alloc_gap_and_asserts.2 Char w0 0 'a' w0_inv⟩

/-- Witness for C2, at the freshly created replica of site 1. -/
theorem reachable_sorted_witness :
    List.Chain' (fun e1 e2 => idLt e1.id e2.id) w0.seq ∧
    List.Pairwise (fun i1 i2 => i1 ≠ i2) (w0.seq.map Entry.id) :=
  reachable_sorted w0 (Reachable.new 1 wStrat wSteps)

/-- Witness for C3: two inserts with distinct identifiers commute on the
empty replica. -/
theorem apply_commutes_witness :
    (w0.apply (.Insert [(1, 1)] ⟨1, 0⟩ 'a')).apply (.Insert [(2, 1)] ⟨1, 1⟩ 'b') =
    (w0.apply (.Insert [(2, 1)] ⟨1, 1⟩ 'b')).apply (.Insert [(1, 1)] ⟨1, 0⟩ 'a') :=
  apply_commutes w0 _ _ (by simp [w0, LSeq.new, SortedSeq]) (Or.inl (by decide))

/-- Witness for C4: a delete applied twice at the one-entry replica. -/
theorem apply_idempotent_witness :
    (w1.apply (.Delete ⟨1, 0⟩ [(1, 1)] ⟨2, 0⟩)).apply (.Delete ⟨1, 0⟩ [(1, 1)] ⟨2, 0⟩) =
    w1.apply (.Delete ⟨1, 0⟩ [(1, 1)] ⟨2, 0⟩) :=
  apply_idempotent w1 _ w1_sorted

/-- Witness for C5: a duplicate insert and a delete of an absent
identifier both leave the one-entry replica unchanged. -/
theorem apply_noop_witness :
    w1.apply (.Insert [(1, 1)] ⟨9, 9⟩ 'z') = w1 ∧
    w1.apply (.Delete ⟨1, 0⟩ [(2, 1)] ⟨2, 0⟩) = w1 :=
  ⟨(apply_noop_duplicate_absent w1 w1_sorted).1 [(1, 1)] ⟨9, 9⟩ 'z'
      ⟨⟨[(1, 1)], ⟨1, 0⟩, 'a'⟩, by simp [w1], rfl⟩,
   (apply_noop_duplicate_absent w1 w1_sorted).2 ⟨1, 0⟩ [(2, 1)] ⟨2, 0⟩ (by decide)⟩

/-- Witness for C6: deleting at index 3 of the empty replica. -/
theorem delete_index_out_of_range_witness : w0.delete_index 3 = none :=
  delete_index_out_of_range w0 3 (by decide)

/-- Witness for C7: inserting at index 5 of the empty replica appends. -/
theorem insert_index_clamps_witness :
    ∃ (op : Op Char) (s' : LSeq Char), w0.insert_index 5 'a' = some (op, s') ∧
      s'.iter = (w0.iter).insertIdx (min 5 w0.iter.length) 'a' :=
  insert_index_clamps w0 5 'a' w0_inv

/-- Witness for C8 (amended): the round trip at index 0 of the empty
replica. -/
theorem roundtrip_restores_witness :
    ∃ (o1 : Op Char) (t : LSeq Char) (o2 : Op Char) (u : LSeq Char),
      w0.insert_index 0 'b' = some (o1, t) ∧ t.delete_index 0 = some (o2, u) ∧
      u.iter = w0.iter :=
  roundtrip_restores w0 0 'b' w0_inv (Nat.zero_le _)

/-- Witness for C9: the first local insert of site 1 emits dot `(1, 0)`
and bumps the local counter to 1. -/
theorem dots_fresh_witness :
    (Op.Insert [(1, 1)] ⟨1, 0⟩ 'a').opDot = w0.dot ∧
    w1.dot = ⟨w0.dot.actor, w0.dot.counter + 1⟩ :=
  dots_fresh.2.1 Char w0 w1 0 'a' (Op.Insert [(1, 1)] ⟨1, 0⟩ 'a') rfl

/-- A one-entry replica of the older variant driving the C10 witness. -/
def wOld : OldLSeq Char :=
  { seq := [⟨[(1, 1)], 0, 1, 'a'⟩], gen := ⟨1, wStrat, wSteps⟩, clock := 1 }

/-- Witness for C10: the older local delete fails on the empty replica
and clamps index 5 to the single (last) entry of `wOld`. -/
theorem old_local_delete_clamps_witness :
    (OldLSeq.local_delete
      { seq := ([] : List (OldEntry Char)), gen := ⟨1, wStrat, wSteps⟩, clock := 0 } 7 = none) ∧
    wOld.local_delete 5 = some
      (.Delete ((wOld.seq.getLast (by simp [wOld])).site, (wOld.seq.getLast (by simp [wOld])).clock)
          (wOld.seq.getLast (by simp [wOld])).id wOld.gen.site_id wOld.clock,
        { seq := wOld.seq.dropLast, gen := wOld.gen, clock := wOld.clock + 1 }) :=
  ⟨old_local_delete_clamps.1 Char _ 7 rfl,
   old_local_delete_clamps.2 Char wOld 5 (by simp [wOld]) (by simp [wOld, OldSorted])
     (by decide)⟩

end Crdts
